/-
Verification of the normalization, deduplication and similarity-ranking
pipeline of the AIJobSearch repository, as a shallow embedding in Lean 4.

Sources embedded here:
  * src/data_preprocessor.py  (SimpleJobCleaner: field cleaners, remove_duplicates,
    remove_bad_jobs, create_clean_text, clean_all_jobs)
  * src/complete_job_matching_pipeline.py  (CompleteJobMatchingPipeline:
    _remove_duplicates, _clean_job_data, _clean_text, _is_valid_job,
    run_stage4_similarity_matching, display_results)
  * src/job_matcher.py  (SimpleJobMatcher: calculate_similarities, get_top_jobs,
    analyze_results)
  * src/config.py  (QUALITY_SETTINGS)

Modelling conventions:
  * Text is modelled over ASCII characters; `pandas` NaN / absent dict keys are
    modelled as `none` in `Option String` fields.
  * Exact rational arithmetic stands in for IEEE floats; the float `nan` that
    `scipy.spatial.distance.cosine` produces on zero-norm input is modelled
    explicitly by a dedicated constructor (`CosScore.nan`).  Rounding is out of
    scope; every claim below is about branch structure, ordering and selection,
    not about rounding error.
  * Python exceptions are modelled with `Except Unit`.
-/
import Mathlib

/-! ### Python string primitives (ASCII model) -/

/-- Characters matched by Python's `str.strip()` and by `\s` in `re` (ASCII range). -/
def isPyWs (c : Char) : Bool :=
  c = ' ' || c = '\t' || c = '\n' || c = '\r' || c = '\x0b' || c = '\x0c'

/-- Drop leading whitespace characters. -/
def dropWsLeft : List Char → List Char
  | [] => []
  | c :: cs => if isPyWs c then dropWsLeft cs else c :: cs

/-- Python `str.strip()` on a character list: drop whitespace at both ends. -/
def stripChars (cs : List Char) : List Char :=
  ((dropWsLeft ((dropWsLeft cs).reverse)).reverse)

/-- Python `str.strip()`. -/
def pyStrip (s : String) : String := String.mk (stripChars s.toList)

/-- One pass of `re.sub(r'\s+', ' ', text)`: every maximal run of whitespace
becomes a single space.  `prevWs` records whether the previous character
belonged to a whitespace run. -/
def collapseWsAux (prevWs : Bool) : List Char → List Char
  | [] => []
  | c :: cs =>
    if isPyWs c then
      if prevWs then collapseWsAux true cs else ' ' :: collapseWsAux true cs
    else c :: collapseWsAux false cs

/-- `re.sub(r'\s+', ' ', s)`. -/
def collapseWs (s : String) : String := String.mk (collapseWsAux false s.toList)

/-- `pat` is a prefix of `s` (exact characters). -/
def isPfxOf : List Char → List Char → Bool
  | [], _ => true
  | _ :: _, [] => false
  | p :: ps, c :: cs => p = c && isPfxOf ps cs

/-- `pat` occurs as a contiguous run somewhere in `s`. -/
def containsChars : List Char → List Char → Bool
  | s, pat =>
    if isPfxOf pat s then true
    else
      match s with
      | [] => false
      | _ :: cs => containsChars cs pat

/-- Python substring test `pat in s`. -/
def containsSub (s pat : String) : Bool := containsChars s.toList pat.toList

/-- Python `str.replace`: substitute every non-overlapping occurrence of `pat`,
scanning left to right.  The scan consumes at least one character per step, so
`fuel := length of the text` makes the recursion structural (every recursive
call strictly shrinks the text and keeps `fuel ≥ length`); the fuel-exhausted
branch is unreachable.  (All patterns used by the code are non-empty; an empty
pattern leaves the text unchanged.) -/
def replaceCharsGo (pat rep : List Char) : Nat → List Char → List Char
  | _, [] => []
  | 0, cs => cs
  | fuel + 1, c :: cs =>
    if pat.isEmpty then c :: cs
    else if isPfxOf pat (c :: cs) then
      rep ++ replaceCharsGo pat rep fuel (List.drop (pat.length - 1) cs)
    else c :: replaceCharsGo pat rep fuel cs

/-- Python `s.replace(pat, rep)`. -/
def pyReplace (s pat rep : String) : String :=
  String.mk (replaceCharsGo pat.toList rep.toList s.toList.length s.toList)

/-- ASCII `str.lower()` (characters are mapped independently). -/
def toLowerStr (s : String) : String := String.mk (s.toList.map Char.toLower)

/-- Python `s.startswith(pat)`. -/
def beginsWith (s pat : String) : Bool := isPfxOf pat.toList s.toList

/-- Python slicing `s[n:]` (by characters). -/
def strDropChars (s : String) (n : Nat) : String := String.mk (s.toList.drop n)

/-! ### SimpleJobCleaner field cleaners (src/data_preprocessor.py) -/

/-- A raw job record: one row of the jobs DataFrame / one scraped job dict.
`none` models a pandas NaN cell or an absent dict key.  `clean_text` is the
column added by `create_clean_text`. -/
structure RawJob where
  title : Option String
  company : Option String
  location : Option String
  description : Option String
  url : Option String
  source : Option String
  scraped_date : Option String
  clean_text : Option String := none
deriving DecidableEq

/-- `SimpleJobCleaner.clean_whitespace` (src/data_preprocessor.py:55):
NaN becomes `""`; otherwise collapse whitespace runs and strip. -/
def cleanWhitespaceStr (s : String) : String := pyStrip (collapseWs s)

/-- `clean_whitespace` applied to a possibly-NaN cell. -/
def cleanWhitespace (t : Option String) : String :=
  match t with
  | none => ""
  | some s => cleanWhitespaceStr s

/-- `SimpleJobCleaner.clean_job_title` (src/data_preprocessor.py:87):
NaN becomes `"Unknown Position"`; otherwise strip, then peel the prefixes
`Job:`, `Position:`, `Hiring:` in that order, stripping after each. -/
def cleanJobTitle (t : Option String) : String :=
  match t with
  | none => "Unknown Position"
  | some t0 =>
    let t1 := pyStrip t0
    let t2 := if beginsWith t1 "Job:" then pyStrip (strDropChars t1 4) else t1
    let t3 := if beginsWith t2 "Position:" then pyStrip (strDropChars t2 9) else t2
    if beginsWith t3 "Hiring:" then pyStrip (strDropChars t3 7) else t3

/-- `SimpleJobCleaner.fix_locations` (src/data_preprocessor.py:70):
NaN becomes `"Unknown"`; otherwise strip and apply the alias replacements. -/
def fixLocations (loc : Option String) : String :=
  match loc with
  | none => "Unknown"
  | some l0 =>
    let l1 := pyStrip l0
    let l2 :=
      if containsSub l1 "St. Louis" || containsSub l1 "St Louis" then
        pyReplace (pyReplace l1 "St. Louis" "Saint Louis") "St Louis" "Saint Louis"
      else l1
    if containsSub l2 "KC" then pyReplace l2 "KC" "Kansas City" else l2

/-- Scan after a `<`: the characters consumed by the non-greedy `re` pattern
`<.*?>`.  `.` does not match a newline, so the scan fails if a `'\n'` appears
before the first `'>'`.  Returns the characters after the closing `'>'`. -/
def findTagEnd : List Char → Option (List Char)
  | [] => none
  | c :: cs => if c = '>' then some cs else if c = '\n' then none else findTagEnd cs

/-- `re.sub(r'<.*?>', '', text)` from `remove_html_tags`
(src/data_preprocessor.py:45): delete each minimal `<...>` span; a `<` with
no closing `>` on the same line is kept and scanning resumes after it.
Fuel-structured as in `replaceCharsGo`; each step consumes at least one
character, so `fuel := length` makes the fuel branch unreachable. -/
def stripTagsCharsGo : Nat → List Char → List Char
  | _, [] => []
  | 0, cs => cs
  | fuel + 1, c :: cs =>
    if c = '<' then
      match findTagEnd cs with
      | some rest => stripTagsCharsGo fuel rest
      | none => c :: stripTagsCharsGo fuel cs
    else c :: stripTagsCharsGo fuel cs

/-- The tag-deletion pass on a character list. -/
def stripTagsChars (cs : List Char) : List Char := stripTagsCharsGo cs.length cs

/-- The HTML-entity replacements of `remove_html_tags`, in source order. -/
def decodeEntities (s : String) : String :=
  pyReplace (pyReplace (pyReplace (pyReplace s "&amp;" "&") "&lt;" "<") "&gt;" ">") "&quot;" "\""

/-- `SimpleJobCleaner.remove_html_tags` (src/data_preprocessor.py:39) on a string. -/
def removeHtmlTagsStr (s : String) : String :=
  decodeEntities (String.mk (stripTagsChars s.toList))

/-- Case-insensitive prefix test: `ph` (already lowercase) matches the start
of `cs` up to ASCII lowercasing, as `re.IGNORECASE` does for plain-text patterns. -/
def ciPrefix : List Char → List Char → Bool
  | [], _ => true
  | _ :: _, [] => false
  | p :: ps, c :: cs => p = c.toLower && ciPrefix ps cs

/-- `re.sub(phrase, '', text, flags=re.IGNORECASE)` for a plain-text `phrase`:
remove every (non-overlapping, left-to-right) case-insensitive occurrence.
Fuel-structured as in `replaceCharsGo`. -/
def removeCIGo (ph : List Char) : Nat → List Char → List Char
  | _, [] => []
  | 0, cs => cs
  | fuel + 1, c :: cs =>
    if ph.isEmpty then c :: cs
    else if ciPrefix ph (c :: cs) then removeCIGo ph fuel (List.drop (ph.length - 1) cs)
    else c :: removeCIGo ph fuel cs

/-- The case-insensitive phrase-removal pass. -/
def removeCI (ph cs : List Char) : List Char := removeCIGo ph cs.length cs

/-- The boilerplate phrases of `clean_description`, in source order. -/
def boilerplatePhrases : List String :=
  ["equal opportunity employer", "apply now", "click here to apply", "send resume to"]

/-- `SimpleJobCleaner.clean_description` (src/data_preprocessor.py:104):
NaN or a placeholder becomes `""`; otherwise strip HTML, clean whitespace,
remove boilerplate phrases case-insensitively, clean whitespace again. -/
def cleanDescription (d : Option String) : String :=
  match d with
  | none => ""
  | some s =>
    if s = "No Description" || s = "N/A" || s = "NA" || s = "" then ""
    else
      let s1 := removeHtmlTagsStr s
      let s2 := cleanWhitespaceStr s1
      let s3 := boilerplatePhrases.foldl
        (fun acc ph => String.mk (removeCI ph.toList acc.toList)) s2
      cleanWhitespaceStr s3

/-! ### Deduplication and validity filtering -/

/-- Keep-first-per-key scan shared by the two dedup implementations:
a record is kept iff its key has not been seen and is not excluded; kept
records add their key to `seen`.  With `excl` constantly false this is
`pandas.DataFrame.drop_duplicates(subset=[key], keep='first')`; the pipeline
instance excludes the identity `("", "")`. -/
def keepFirstAux {α κ : Type} [DecidableEq κ] (key : α → κ) (excl : κ → Bool) :
    List κ → List α → List α
  | _, [] => []
  | seen, x :: xs =>
    if key x ∈ seen ∨ excl (key x) = true then keepFirstAux key excl seen xs
    else x :: keepFirstAux key excl (key x :: seen) xs

/-- The dedup key of `SimpleJobCleaner.remove_duplicates`
(src/data_preprocessor.py:143): `title.str.lower() + '|' + company.str.lower()`.
A NaN in either field propagates to a NaN key (`none`); pandas groups NaN keys
together when dropping duplicates. -/
def ppKey (r : RawJob) : Option String :=
  match r.title, r.company with
  | some t, some c => some (toLowerStr t ++ "|" ++ toLowerStr c)
  | _, _ => none

/-- `SimpleJobCleaner.remove_duplicates` (src/data_preprocessor.py:136):
`drop_duplicates` on the lowercased `title|company` key, keeping the first row. -/
def removeDuplicates (rs : List RawJob) : List RawJob :=
  keepFirstAux ppKey (fun _ => false) [] rs

/-- First filter of `SimpleJobCleaner.remove_bad_jobs`
(src/data_preprocessor.py:166): `title` and `company` present and not `''`
(no trimming is applied here). -/
def titleCompanyOk (r : RawJob) : Bool :=
  (match r.title with | none => false | some t => decide (t ≠ "")) &&
  (match r.company with | none => false | some c => decide (c ≠ ""))

/-- Second filter of `remove_bad_jobs` (src/data_preprocessor.py:174):
`description.str.len() >= 20` or `description.isna()` — a missing description
is retained, and the hard-coded threshold is 20 characters. -/
def descLenOk (r : RawJob) : Bool :=
  match r.description with
  | none => true
  | some d => decide (20 ≤ d.length)

/-- `SimpleJobCleaner.remove_bad_jobs` (src/data_preprocessor.py:159):
the two boolean-mask filters applied in sequence. -/
def removeBadJobs (rs : List RawJob) : List RawJob :=
  (rs.filter titleCompanyOk).filter descLenOk

/-- Steps 1-4 of `clean_all_jobs` (src/data_preprocessor.py:222-232): apply
the per-field cleaners column by column. -/
def cleanFields (rs : List RawJob) : List RawJob :=
  let r1 := rs.map (fun r => { r with title := some (cleanJobTitle r.title) })
  let r2 := r1.map (fun r => { r with location := some (fixLocations r.location) })
  let r3 := r2.map (fun r => { r with company := some (cleanWhitespace r.company) })
  r3.map (fun r => { r with description := some (cleanDescription r.description) })

/-- The composed text of `create_clean_text` (src/data_preprocessor.py:184):
labelled segments joined by `" | "`, omitting NaN fields and an empty
description. -/
def composeCleanText (r : RawJob) : String :=
  let parts :=
    (match r.title with | none => [] | some t => ["Title: " ++ t]) ++
    (match r.company with | none => [] | some c => ["Company: " ++ c]) ++
    (match r.location with | none => [] | some l => ["Location: " ++ l]) ++
    (match r.description with
     | none => []
     | some d => if d = "" then [] else ["Description: " ++ d])
  String.intercalate " | " parts

/-- `SimpleJobCleaner.create_clean_text`: add the `clean_text` column. -/
def createCleanText (rs : List RawJob) : List RawJob :=
  rs.map (fun r => { r with clean_text := some (composeCleanText r) })

/-- `SimpleJobCleaner.clean_all_jobs` (src/data_preprocessor.py:212): clean the
fields, then `remove_duplicates()`, then `remove_bad_jobs()`, then
`create_clean_text()` — deduplication runs BEFORE validity filtering. -/
def cleanAllJobs (rs : List RawJob) : List RawJob :=
  createCleanText (removeBadJobs (removeDuplicates (cleanFields rs)))

/-! ### CompleteJobMatchingPipeline helpers (src/complete_job_matching_pipeline.py) -/

/-- Scan after a `<` for the pipeline's tag pattern `<[^>]+>`: find the first
`'>'` (a newline may occur inside) and return the characters after it. -/
def tagRestPipe : List Char → Option (List Char)
  | [] => none
  | c :: cs => if c = '>' then some cs else tagRestPipe cs

theorem tagRestPipe_length_lt :
    ∀ cs rest, tagRestPipe cs = some rest → rest.length < cs.length := by
  intro cs
  induction cs with
  | nil => intro rest h; simp [tagRestPipe] at h
  | cons c cs ih =>
    intro rest h
    by_cases hgt : c = '>'
    · simp [tagRestPipe, hgt] at h
      subst h; simp
    · simp [tagRestPipe, hgt] at h
      exact Nat.lt_trans (ih rest h) (by simp)

/-- The pipeline's tag pattern `<[^>]+>` applied at a `<`: it matches iff the
next character exists and is not `>` (the `+` requires at least one character)
and a `>` occurs later; returns the characters after that first `>`. -/
def pipeTagMatch : List Char → Option (List Char)
  | [] => none
  | d :: ds => if d = '>' then none else tagRestPipe ds

theorem pipeTagMatch_length_lt :
    ∀ cs rest, pipeTagMatch cs = some rest → rest.length < cs.length := by
  intro cs rest h
  match cs with
  | [] => simp [pipeTagMatch] at h
  | d :: ds =>
    by_cases hgt : d = '>'
    · simp [pipeTagMatch, hgt] at h
    · simp [pipeTagMatch, hgt] at h
      exact Nat.lt_trans (tagRestPipe_length_lt ds rest h) (by simp)

/-- `re.sub(r'<[^>]+>', ' ', text)` from `_clean_text`
(src/complete_job_matching_pipeline.py:438): each `<`, at least one non-`>`
character, and the closing `>` are replaced by one space; `<>` is not a match. -/
def stripTagsPipeCharsGo : Nat → List Char → List Char
  | _, [] => []
  | 0, cs => cs
  | fuel + 1, c :: cs =>
    if c = '<' then
      match pipeTagMatch cs with
      | some rest => ' ' :: stripTagsPipeCharsGo fuel rest
      | none => c :: stripTagsPipeCharsGo fuel cs
    else c :: stripTagsPipeCharsGo fuel cs

/-- The pipeline's tag-to-space pass on a character list (fuel-structured as
in `replaceCharsGo`). -/
def stripTagsPipeChars (cs : List Char) : List Char := stripTagsPipeCharsGo cs.length cs

/-- `CompleteJobMatchingPipeline._clean_text`
(src/complete_job_matching_pipeline.py:431): falsy input becomes `""`;
otherwise strip tags to spaces, collapse whitespace, strip. -/
def cleanTextPipe (s : String) : String :=
  if s = "" then ""
  else pyStrip (collapseWs (String.mk (stripTagsPipeChars s.toList)))

/-- A job dict after `_clean_job_data`: every field is a string. -/
structure PipeJob where
  title : String
  company : String
  location : String
  description : String
  url : String
  source : String
  scraped_date : String
deriving DecidableEq

/-- `CompleteJobMatchingPipeline._clean_job_data`
(src/complete_job_matching_pipeline.py:419): fill defaults for missing keys
and clean the four text fields; `url`, `source`, `scraped_date` pass through
(the model fixes a date string for the `datetime.now()` fallback). -/
def cleanJobData (j : RawJob) (today : String) : PipeJob :=
  { title := cleanTextPipe (j.title.getD "Unknown Title")
    company := cleanTextPipe (j.company.getD "Unknown Company")
    location := cleanTextPipe (j.location.getD "Unknown Location")
    description := cleanTextPipe (j.description.getD "No description")
    url := j.url.getD ""
    source := j.source.getD "Unknown"
    scraped_date := j.scraped_date.getD today }

/-- `QUALITY_SETTINGS['min_description_length']` (src/config.py:79). -/
def minDescriptionLengthSetting : Nat := 50

/-- `CompleteJobMatchingPipeline._is_valid_job`
(src/complete_job_matching_pipeline.py:445): non-empty stripped title and
company, and stripped description of length at least the hard-coded 50. -/
def isValidJob (j : PipeJob) : Bool :=
  decide (0 < (pyStrip j.title).length) &&
  decide (0 < (pyStrip j.company).length) &&
  decide (50 ≤ (pyStrip j.description).length)

/-- The dedup identity of `CompleteJobMatchingPipeline._remove_duplicates`
(src/complete_job_matching_pipeline.py:407): `lower().strip()` of title and of
company, with `''` substituted for a missing key.  Internal whitespace is NOT
collapsed. -/
def pipeIdentity (j : RawJob) : String × String :=
  (pyStrip (toLowerStr (j.title.getD "")), pyStrip (toLowerStr (j.company.getD "")))

/-- `CompleteJobMatchingPipeline._remove_duplicates`
(src/complete_job_matching_pipeline.py:401): keep the first job per identity;
a job whose identity is `("", "")` is always dropped. -/
def pipeRemoveDuplicates (js : List RawJob) : List RawJob :=
  keepFirstAux pipeIdentity (fun k => decide (k = ("", ""))) [] js

/-! ### Cosine similarity (src/job_matcher.py, src/complete_job_matching_pipeline.py) -/

/-- `np.dot` on two equal-length 1-D vectors (exact rationals). -/
def dotQ : List ℚ → List ℚ → ℚ
  | [], _ => 0
  | _, [] => 0
  | x :: xs, y :: ys => x * y + dotQ xs ys

/-- One float produced by the similarity computation.  `nan` is IEEE nan;
`val uv uuvv` (with `uuvv > 0`) encodes the exact real `uv / √uuvv`, i.e. the
cosine of the two vectors — the encoding avoids irrational square roots while
keeping zero-ness decidable (`uv / √uuvv = 0 ↔ uv = 0`). -/
inductive CosScore where
  | nan : CosScore
  | val (uv uuvv : ℚ) : CosScore
deriving DecidableEq

/-- The recorded score is (exactly) the float `0.0`. -/
def CosScore.isZero : CosScore → Bool
  | .nan => false
  | .val uv _ => decide (uv = 0)

/-- `scipy.spatial.distance.cosine(u, v)` (the call at src/job_matcher.py:136
and src/complete_job_matching_pipeline.py:251): raises (ValueError from
`np.dot`) iff the lengths differ; when either norm is zero the division
`0.0 / sqrt(0.0)` evaluates to nan under numpy with only a RuntimeWarning — no
exception — and `np.clip(nan, 0, 2)` is still nan; otherwise the distance is
`1 - uv / √(uu·vv)` (the clip is a no-op in exact arithmetic by Cauchy-Schwarz). -/
def scipyCosineDist (u v : List ℚ) : Except Unit CosScore :=
  if u.length ≠ v.length then .error ()
  else if dotQ u u * dotQ v v = 0 then .ok .nan
  else .ok (.val (dotQ u v) (dotQ u u * dotQ v v))

/-- One iteration of the scoring loops (src/job_matcher.py:131-146 and
src/complete_job_matching_pipeline.py:246-265): `similarity = 1 - distance`
(nan propagates; on a defined distance `1 - (1 - cos) = cos`), and the
`except` branch records the float `0.0` when the call raised. -/
def simScoreOf (resume job : List ℚ) : CosScore :=
  match scipyCosineDist resume job with
  | .ok .nan => .nan
  | .ok (.val uv uuvv) => .val uv uuvv
  | .error _ => .val 0 1

/-- The whole scoring pass: one score per job embedding, in embedding order.
Both cited loops append exactly `jobs.map (simScoreOf resume)`. -/
def scoreAllJobs (resume : List ℚ) (jobs : List (List ℚ)) : List CosScore :=
  jobs.map (fun e => simScoreOf resume e)

/-- The state of `SimpleJobMatcher` relevant to `calculate_similarities`;
`job_data` entries are opaque (`α`). -/
structure Matcher (α : Type) where
  job_embeddings : List (List ℚ)
  resume_embedding : Option (List ℚ)
  job_data : List α
  similarities : List CosScore
deriving DecidableEq

/-- `SimpleJobMatcher.calculate_similarities` (src/job_matcher.py:108): returns
`False` (leaving state unchanged) when no resume embedding is loaded, when
there are no job embeddings, or when the data/embedding counts differ;
otherwise recomputes `self.similarities` and returns `True`. -/
def calculateSimilarities {α : Type} (m : Matcher α) : Bool × Matcher α :=
  match m.resume_embedding with
  | none => (false, m)
  | some r =>
    if m.job_embeddings.length = 0 then (false, m)
    else if m.job_data.length ≠ m.job_embeddings.length then (false, m)
    else (true, { m with similarities := scoreAllJobs r m.job_embeddings })

/-! ### Ranking (src/job_matcher.py get_top_jobs, stage 4 sort) -/

/-- `enumerate(...)` starting at `n`. -/
def enumFrom {α : Type} : Nat → List α → List (Nat × α)
  | _, [] => []
  | n, x :: xs => (n, x) :: enumFrom (n + 1) xs

/-- Python `list(enumerate(l))`. -/
def pyEnum {α : Type} (l : List α) : List (Nat × α) := enumFrom 0 l

/-- Stable insertion for descending order on the key: `x` is placed before the
first element whose key is not larger, so among equal keys earlier-processed
elements stay first. -/
def insertDesc {α : Type} (key : α → ℚ) (x : α) : List α → List α
  | [] => [x]
  | y :: ys => if key y ≤ key x then x :: y :: ys else y :: insertDesc key x ys

/-- Python's `list.sort(key=..., reverse=True)` for keys on which `<` is a
strict total order (every non-nan float list): a stable sort into descending
key order (timsort is stable, and `reverse=True` preserves the original
relative order of equal keys). -/
def pySortDesc {α : Type} (key : α → ℚ) : List α → List α
  | [] => []
  | x :: xs => insertDesc key x (pySortDesc key xs)

/-- A similarity value as the sort sees it: `none` is the float nan.
Python `x < y` is false whenever either operand is nan. -/
def pyLtOptQ : Option ℚ → Option ℚ → Bool
  | some a, some b => decide (a < b)
  | _, _ => false

/-- The comparison `list.sort(key=lambda x: x[1], ...)` performs on the
`(job_index, score)` pairs: `<` on the score keys. -/
def pyLtScorePair (a b : Nat × Option ℚ) : Bool := pyLtOptQ a.2 b.2

/-- CPython `count_run`, ascending case: extend while not `lt next prev`. -/
def ascRun {α : Type} (lt : α → α → Bool) : α → List α → List α × List α
  | prev, [] => ([prev], [])
  | prev, x :: xs =>
    if lt x prev then ([prev], x :: xs)
    else
      let (run, rest) := ascRun lt x xs
      (prev :: run, rest)

/-- CPython `count_run`, descending case: extend while strictly `lt next prev`. -/
def descRun {α : Type} (lt : α → α → Bool) : α → List α → List α × List α
  | prev, [] => ([prev], [])
  | prev, x :: xs =>
    if lt x prev then
      let (run, rest) := descRun lt x xs
      (prev :: run, rest)
    else ([prev], x :: xs)

/-- CPython `count_run`: the maximal initial run, a strictly-descending run
being reversed in place. -/
def countRun {α : Type} (lt : α → α → Bool) : List α → List α × List α
  | [] => ([], [])
  | [x] => ([x], [])
  | x :: y :: rest =>
    if lt y x then
      let (run, rst) := descRun lt y rest
      ((x :: run).reverse, rst)
    else ascRun lt x (y :: rest)

/-- CPython's binary search for the insertion point of `pivot` in the sorted
prefix `a[0:r]`: `l = 0, r = |a|; while l < r: p = (l+r)/2; if pivot < a[p]
then r = p else l = p+1` — insertion after equal keys keeps the sort stable.
Fuel-structured; `|a| + 1` steps always suffice. -/
def binSearch {α : Type} (lt : α → α → Bool) (a : List α) (pivot : α) (d : α) :
    Nat → Nat → Nat → Nat
  | 0, l, _ => l
  | fuel + 1, l, r =>
    if l < r then
      let p := (l + r) / 2
      if lt pivot (a.getD p d) then binSearch lt a pivot d fuel l p
      else binSearch lt a pivot d fuel (p + 1) r
    else l

/-- Insert `x` at index `i`. -/
def insertAt {α : Type} (i : Nat) (x : α) (a : List α) : List α :=
  a.take i ++ x :: a.drop i

/-- CPython `binarysort`: insert the remaining elements one by one into the
sorted prefix at the binary-search position. -/
def binarySortGo {α : Type} (lt : α → α → Bool) (d : α) :
    List α → List α → List α
  | sorted, [] => sorted
  | sorted, x :: xs =>
    binarySortGo lt d
      (insertAt (binSearch lt sorted x d (sorted.length + 1) 0 sorted.length) x sorted)
      xs

/-- CPython `list.sort` for fewer than 64 elements (`minrun = n`, so the whole
list is one run: `count_run` then `binarysort`, with no merge pass). -/
def timsortShort {α : Type} (lt : α → α → Bool) (d : α) (l : List α) : List α :=
  match countRun lt l with
  | (run, rest) => binarySortGo lt d run rest

/-- CPython `list.sort(reverse=True)` for fewer than 64 elements:
`listsort_impl` reverses the list, sorts ascending, and reverses again.  On a
key type where `lt` is a strict total order this agrees with `pySortDesc`; it
is also defined on nan-containing score lists, where `lt` is not total. -/
def pySortReverse {α : Type} (lt : α → α → Bool) (d : α) (l : List α) : List α :=
  (timsortShort lt d l.reverse).reverse

/-- One entry of the `top_jobs` list built by `get_top_jobs`: the copied job
dict with the added `similarity_score` and 1-based `rank` keys. -/
structure TopJob (α : Type) where
  job : α
  similarity_score : ℚ
  rank : Nat
deriving DecidableEq

/-- `SimpleJobMatcher.get_top_jobs` (src/job_matcher.py:151): an empty
similarity list returns `[]`; otherwise sort `enumerate(similarities)` by
score descending (stable) and take the first `min(top_n, N)` entries, ranked
`1, 2, ...`.  Scores are taken as exact rationals here; `jobData.getD`/`getD`
model the in-bounds indexing `self.job_data[job_index]`. -/
def getTopJobs {α : Type} [Inhabited α]
    (jobData : List α) (sims : List ℚ) (top_n : Nat) : List (TopJob α) :=
  if sims.isEmpty then []
  else
    let sorted := pySortDesc Prod.snd (pyEnum sims)
    (List.range (min top_n sorted.length)).map (fun i =>
      let p := sorted.getD i (0, 0)
      { job := jobData.getD p.1 default, similarity_score := p.2, rank := i + 1 })

/-- `save_results` (src/job_matcher.py:213) starts with
`if not top_jobs: print(...); return` — nothing is written for an empty list. -/
def saveResultsWrites {α : Type} (top_jobs : List (TopJob α)) : Bool :=
  !top_jobs.isEmpty

/-- The ranking state built by `run_stage4_similarity_matching`
(src/complete_job_matching_pipeline.py:242-274): entries are
`(job_index, similarity_score)`; `job_data` payloads are omitted here (stats
read only the scores). -/
structure Stage4Rank where
  similarity_scores : List (Nat × ℚ)
  top_matches : List (Nat × ℚ)
deriving DecidableEq

/-- Steps 4a-4b of `run_stage4_similarity_matching`: index the scores, sort in
place by score descending (stable), slice the first `top_n`. -/
def runStage4Rank (scores : List ℚ) (top_n : Nat) : Stage4Rank :=
  let sorted := pySortDesc Prod.snd (pyEnum scores)
  { similarity_scores := sorted, top_matches := sorted.take top_n }

/-! ### Result statistics (analyze_results, display_results) -/

/-- `sum(scores) / len(scores)` / `np.mean(scores)` in exact arithmetic
(callers guard against the empty list). -/
def npMean (l : List ℚ) : ℚ := l.sum / l.length

/-- Python `max(scores)` / `np.max` on a non-empty list. -/
def pyMax : List ℚ → ℚ
  | [] => 0
  | x :: xs => xs.foldl max x

/-- Python `min(scores)` on a non-empty list. -/
def pyMin : List ℚ → ℚ
  | [] => 0
  | x :: xs => xs.foldl min x

/-- Stable ascending insertion (ties keep earlier elements first). -/
def insertAsc (x : ℚ) : List ℚ → List ℚ
  | [] => [x]
  | y :: ys => if x ≤ y then x :: y :: ys else y :: insertAsc x ys

/-- Ascending sort, used to model `np.median`'s internal sort. -/
def sortAsc : List ℚ → List ℚ
  | [] => []
  | x :: xs => insertAsc x (sortAsc xs)

/-- `np.median(scores)`: middle of the ascending sort, or the average of the
two middle values for an even count. -/
def npMedian (l : List ℚ) : ℚ :=
  let s := sortAsc l
  if l.length % 2 = 1 then s.getD (l.length / 2) 0
  else (s.getD (l.length / 2 - 1) 0 + s.getD (l.length / 2) 0) / 2

/-- The score list `analyze_results` uses (src/job_matcher.py:252): the scores
of the `top_jobs` list it is given — not of the whole scored population. -/
def analyzeScores {α : Type} (top_jobs : List (TopJob α)) : List ℚ :=
  top_jobs.map (fun j => j.similarity_score)

/-- `Average` line of `analyze_results`: `sum(scores)/len(scores)`. -/
def analyzeAverage {α : Type} (top_jobs : List (TopJob α)) : ℚ :=
  npMean (analyzeScores top_jobs)

/-- `Highest` line of `analyze_results`: `max(scores)`. -/
def analyzeHighest {α : Type} (top_jobs : List (TopJob α)) : ℚ :=
  pyMax (analyzeScores top_jobs)

/-- The score list the summary statistics of `display_results` use
(src/complete_job_matching_pipeline.py:333): all of `self.similarity_scores`,
not only `self.top_matches`. -/
def displayStatScores (s : Stage4Rank) : List ℚ :=
  s.similarity_scores.map Prod.snd

/-! ### The spec's normalization (for comparison with the code's dedup keys) -/

/-- Modelled from the spec: `normalize = lowercase, trim, collapse internal
whitespace` (spec section 3, "Dedup identity").  This definition follows the
spec's words and exists only to compare against the code's key functions. -/
def specNormalize (s : String) : String := cleanWhitespaceStr (toLowerStr s)

/-- Modelled from the spec: the dedup identity `(normalize(title),
normalize(company))`. -/
def specIdentity (title company : String) : String × String :=
  (specNormalize title, specNormalize company)

/-! ### Lemmas about the keep-first-per-key scan -/

section KeepFirst

variable {α κ : Type} [DecidableEq κ] (key : α → κ) (excl : κ → Bool)

theorem keepFirstAux_sublist :
    ∀ (seen : List κ) (l : List α), (keepFirstAux key excl seen l).Sublist l := by
  intro seen l
  induction l generalizing seen with
  | nil => simp [keepFirstAux]
  | cons x xs ih =>
    by_cases h : key x ∈ seen ∨ excl (key x) = true
    · simpa [keepFirstAux, h] using (ih seen).trans (List.sublist_cons_self x xs)
    · simpa [keepFirstAux, h] using (ih (key x :: seen)).cons₂ x

theorem keepFirstAux_mem_key :
    ∀ (seen : List κ) (l : List α) (y : α), y ∈ keepFirstAux key excl seen l →
      key y ∉ seen ∧ excl (key y) = false := by
  intro seen l
  induction l generalizing seen with
  | nil => simp [keepFirstAux]
  | cons x xs ih =>
    intro y hy
    by_cases h : key x ∈ seen ∨ excl (key x) = true
    · rw [keepFirstAux, if_pos h] at hy
      exact ih seen y hy
    · rw [keepFirstAux, if_neg h] at hy
      push_neg at h
      rcases List.mem_cons.mp hy with rfl | hy'
      · exact ⟨h.1, by simpa using h.2⟩
      · have := ih (key x :: seen) y hy'
        exact ⟨fun hc => this.1 (List.mem_cons_of_mem _ hc), this.2⟩

theorem keepFirstAux_pairwise :
    ∀ (seen : List κ) (l : List α),
      (keepFirstAux key excl seen l).Pairwise (fun a b => key a ≠ key b) := by
  intro seen l
  induction l generalizing seen with
  | nil => simp [keepFirstAux]
  | cons x xs ih =>
    by_cases h : key x ∈ seen ∨ excl (key x) = true
    · simpa [keepFirstAux, h] using ih seen
    · rw [keepFirstAux, if_neg h]
      refine List.pairwise_cons.mpr ⟨fun y hy => ?_, ih (key x :: seen)⟩
      have := keepFirstAux_mem_key key excl (key x :: seen) xs y hy
      exact fun hxy => this.1 (by simp [hxy])

/-- First-seen wins: every kept record is the first record of the whole input
carrying its key. -/
theorem keepFirstAux_first_wins :
    ∀ (seen : List κ) (l : List α) (y : α), y ∈ keepFirstAux key excl seen l →
      l.find? (fun z => decide (key z = key y)) = some y := by
  intro seen l
  induction l generalizing seen with
  | nil => simp [keepFirstAux]
  | cons x xs ih =>
    intro y hy
    by_cases h : key x ∈ seen ∨ excl (key x) = true
    · rw [keepFirstAux, if_pos h] at hy
      have hk := keepFirstAux_mem_key key excl seen xs y hy
      have hne : key x ≠ key y := by
        rintro heq
        rcases h with hs | he
        · exact hk.1 (heq ▸ hs)
        · rw [heq, hk.2] at he; cases he
      rw [List.find?_cons_of_neg _ (by simpa using hne)]
      exact ih seen y hy
    · rw [keepFirstAux, if_neg h] at hy
      rcases List.mem_cons.mp hy with rfl | hy'
      · exact List.find?_cons_of_pos _ (by simp)
      · have hk := keepFirstAux_mem_key key excl (key x :: seen) xs y hy'
        have hne : key x ≠ key y := fun heq => hk.1 (by simp [heq])
        rw [List.find?_cons_of_neg _ (by simpa using hne)]
        exact ih (key x :: seen) y hy'

/-- Converse of `keepFirstAux_first_wins`: a record that is the first of its
key in the input (and whose key is neither excluded nor seen) is kept. -/
theorem keepFirstAux_mem_of_first :
    ∀ (seen : List κ) (l : List α) (y : α),
      l.find? (fun z => decide (key z = key y)) = some y →
      excl (key y) = false → key y ∉ seen →
      y ∈ keepFirstAux key excl seen l := by
  intro seen l
  induction l generalizing seen with
  | nil => intro y h; simp at h
  | cons x xs ih =>
    intro y hfind hexcl hseen
    by_cases hxy : key x = key y
    · rw [List.find?_cons_of_pos _ (by simpa using hxy)] at hfind
      have hx : x = y := by injection hfind
      subst hx
      rw [keepFirstAux, if_neg (by
        rw [not_or]
        exact ⟨hxy ▸ hseen, by rw [hxy, hexcl]; simp⟩)]
      exact List.mem_cons_self x _
    · rw [List.find?_cons_of_neg _ (by simpa using hxy)] at hfind
      rw [keepFirstAux]
      by_cases hcond : key x ∈ seen ∨ excl (key x) = true
      · rw [if_pos hcond]
        exact ih seen y hfind hexcl hseen
      · rw [if_neg hcond]
        refine List.mem_cons_of_mem _ (ih (key x :: seen) y hfind hexcl ?_)
        intro hc
        rcases List.mem_cons.mp hc with heq | hs
        · exact hxy heq.symm
        · exact hseen hs

/-- Completeness: a record whose key is neither excluded nor already seen is
represented in the output by some record with the same key. -/
theorem keepFirstAux_complete :
    ∀ (seen : List κ) (l : List α) (y : α), y ∈ l → excl (key y) = false →
      key y ∉ seen → ∃ z ∈ keepFirstAux key excl seen l, key z = key y := by
  intro seen l
  induction l generalizing seen with
  | nil => simp
  | cons x xs ih =>
    intro y hy hex hseen
    by_cases h : key x ∈ seen ∨ excl (key x) = true
    · rw [keepFirstAux, if_pos h]
      rcases List.mem_cons.mp hy with rfl | hy'
      · rcases h with hs | he
        · exact absurd hs hseen
        · rw [hex] at he; cases he
      · exact ih seen y hy' hex hseen
    · rw [keepFirstAux, if_neg h]
      by_cases hxy : key x = key y
      · exact ⟨x, List.mem_cons_self x _, hxy⟩
      · rcases List.mem_cons.mp hy with rfl | hy'
        · exact absurd rfl hxy
        · obtain ⟨z, hz, hzk⟩ :=
            ih (key x :: seen) y hy' hex (by
              intro hc
              rcases List.mem_cons.mp hc with heq | hs
              · exact hxy heq.symm
              · exact hseen hs)
          exact ⟨z, List.mem_cons_of_mem _ hz, hzk⟩

/-- A list whose keys are pairwise distinct, none seen and none excluded, is
returned unchanged. -/
theorem keepFirstAux_fixed :
    ∀ (seen : List κ) (l : List α),
      (∀ y ∈ l, key y ∉ seen ∧ excl (key y) = false) →
      l.Pairwise (fun a b => key a ≠ key b) →
      keepFirstAux key excl seen l = l := by
  intro seen l
  induction l generalizing seen with
  | nil => simp [keepFirstAux]
  | cons x xs ih =>
    intro hmem hpw
    have hx := hmem x (List.mem_cons_self x _)
    rw [keepFirstAux, if_neg (by simp [hx.1, hx.2])]
    have hpw' := List.pairwise_cons.mp hpw
    refine congrArg (x :: ·) (ih (key x :: seen) (fun y hy => ?_) hpw'.2)
    have := hmem y (List.mem_cons_of_mem _ hy)
    refine ⟨?_, this.2⟩
    intro hc
    rcases List.mem_cons.mp hc with heq | hs
    · exact hpw'.1 y hy heq.symm
    · exact this.1 hs

/-- Running the scan again over its own output changes nothing. -/
theorem keepFirstAux_idem (seen : List κ) (l : List α) :
    keepFirstAux key excl seen (keepFirstAux key excl seen l) =
      keepFirstAux key excl seen l :=
  keepFirstAux_fixed key excl seen _
    (fun y hy => keepFirstAux_mem_key key excl seen l y hy)
    (keepFirstAux_pairwise key excl seen l)

theorem keepFirstAux_length_le (seen : List κ) (l : List α) :
    (keepFirstAux key excl seen l).length ≤ l.length :=
  (keepFirstAux_sublist key excl seen l).length_le

end KeepFirst

/-! ### Lemmas about the stable descending sort and enumeration -/

theorem insertDesc_perm {α : Type} (key : α → ℚ) (x : α) :
    ∀ l : List α, List.Perm (insertDesc key x l) (x :: l) := by
  intro l
  induction l with
  | nil => simp [insertDesc]
  | cons y ys ih =>
    by_cases h : key y ≤ key x
    · simp [insertDesc, h]
    · rw [insertDesc, if_neg h]
      exact (ih.cons y).trans (List.Perm.swap x y ys)

theorem pySortDesc_perm {α : Type} (key : α → ℚ) :
    ∀ l : List α, List.Perm (pySortDesc key l) l := by
  intro l
  induction l with
  | nil => simp [pySortDesc]
  | cons x xs ih =>
    exact (insertDesc_perm key x (pySortDesc key xs)).trans (ih.cons x)

/-- The strict "descending by score, ties by ascending original index" order
on `(index, score)` pairs. -/
def rkLT (a b : Nat × ℚ) : Prop := b.2 < a.2 ∨ (a.2 = b.2 ∧ a.1 < b.1)

instance rkLT_decidable : ∀ a b : Nat × ℚ, Decidable (rkLT a b) := by
  intro a b; unfold rkLT; infer_instance

theorem rkLT_antisymm : ∀ a b : Nat × ℚ, rkLT a b → rkLT b a → a = b := by
  rintro a b (h1 | ⟨he1, h1⟩) (h2 | ⟨he2, h2⟩)
  · exact absurd (h1.trans h2) (lt_irrefl _)
  · exact absurd h1 (he2 ▸ lt_irrefl _)
  · exact absurd h2 (he1 ▸ lt_irrefl _)
  · exact absurd (h1.trans h2) (lt_irrefl _)

theorem insertDesc_mem {α : Type} (key : α → ℚ) (x : α) (l : List α) (z : α) :
    z ∈ insertDesc key x l → z = x ∨ z ∈ l := by
  intro hz
  have := (insertDesc_perm key x l).mem_iff.mp hz
  simpa using this

theorem insertDesc_pairwise_rkLT (x : Nat × ℚ) (l : List (Nat × ℚ))
    (hl : l.Pairwise rkLT) (hx : ∀ y ∈ l, x.1 < y.1) :
    (insertDesc Prod.snd x l).Pairwise rkLT := by
  induction l with
  | nil => simp [insertDesc]
  | cons y ys ih =>
    have hpw := List.pairwise_cons.mp hl
    by_cases h : y.2 ≤ x.2
    · rw [insertDesc, if_pos h]
      refine List.pairwise_cons.mpr ⟨?_, hl⟩
      intro z hz
      rcases List.mem_cons.mp hz with rfl | hz'
      · rcases lt_or_eq_of_le h with hlt | heq
        · exact Or.inl hlt
        · exact Or.inr ⟨heq.symm, hx z (List.mem_cons_self z _)⟩
      · rcases hpw.1 z hz' with hlt | ⟨heq, _⟩
        · exact Or.inl (lt_of_lt_of_le hlt h)
        · rcases lt_or_eq_of_le h with hlt2 | heq2
          · exact Or.inl (heq ▸ hlt2)
          · exact Or.inr ⟨heq2.symm.trans heq, hx z (List.mem_cons_of_mem _ hz')⟩
    · rw [insertDesc, if_neg h]
      push_neg at h
      refine List.pairwise_cons.mpr ⟨?_, ih hpw.2 (fun z hz => hx z (List.mem_cons_of_mem _ hz))⟩
      intro z hz
      rcases insertDesc_mem Prod.snd x ys z hz with rfl | hz'
      · exact Or.inl h
      · exact hpw.1 z hz'

theorem enumFrom_fst_lt {α : Type} :
    ∀ (n : Nat) (l : List α) (y : Nat × α), y ∈ enumFrom n l → n ≤ y.1 := by
  intro n l
  induction l generalizing n with
  | nil => simp [enumFrom]
  | cons x xs ih =>
    intro y hy
    rcases List.mem_cons.mp hy with rfl | hy'
    · exact le_refl _
    · exact le_of_lt (Nat.lt_of_lt_of_le (Nat.lt_succ_self n) (ih (n + 1) y hy'))

theorem enumFrom_pairwise_fst {α : Type} :
    ∀ (n : Nat) (l : List α), (enumFrom n l).Pairwise (fun a b => a.1 < b.1) := by
  intro n l
  induction l generalizing n with
  | nil => simp [enumFrom]
  | cons x xs ih =>
    refine List.pairwise_cons.mpr ⟨?_, ih (n + 1)⟩
    intro y hy
    exact Nat.lt_of_lt_of_le (Nat.lt_succ_self n) (enumFrom_fst_lt (n + 1) xs y hy)

theorem enumFrom_map_snd {α : Type} :
    ∀ (n : Nat) (l : List α), (enumFrom n l).map Prod.snd = l := by
  intro n l
  induction l generalizing n with
  | nil => simp [enumFrom]
  | cons x xs ih => simp [enumFrom, ih]

theorem enumFrom_length {α : Type} :
    ∀ (n : Nat) (l : List α), (enumFrom n l).length = l.length := by
  intro n l
  induction l generalizing n with
  | nil => simp [enumFrom]
  | cons x xs ih => simp [enumFrom, ih]

theorem pyEnum_length {α : Type} (l : List α) : (pyEnum l).length = l.length :=
  enumFrom_length 0 l

/-- The sorted enumeration is strictly ordered by `rkLT`: strictly descending
scores, except that equal scores are ordered by ascending original index. -/
theorem pySortDesc_pyEnum_pairwise (sims : List ℚ) :
    (pySortDesc Prod.snd (pyEnum sims)).Pairwise rkLT := by
  have key : ∀ l : List (Nat × ℚ), l.Pairwise (fun a b => a.1 < b.1) →
      (pySortDesc Prod.snd l).Pairwise rkLT := by
    intro l
    induction l with
    | nil => simp [pySortDesc]
    | cons x xs ih =>
      intro hpw
      have hpw' := List.pairwise_cons.mp hpw
      refine insertDesc_pairwise_rkLT x (pySortDesc Prod.snd xs) (ih hpw'.2) ?_
      intro y hy
      exact hpw'.1 y ((pySortDesc_perm Prod.snd xs).mem_iff.mp hy)
  exact key (pyEnum sims) (enumFrom_pairwise_fst 0 sims)

/-! ### Lemmas about the ascending sort, max and mean -/

theorem insertAsc_perm (x : ℚ) :
    ∀ l : List ℚ, List.Perm (insertAsc x l) (x :: l) := by
  intro l
  induction l with
  | nil => simp [insertAsc]
  | cons y ys ih =>
    by_cases h : x ≤ y
    · simp [insertAsc, h]
    · rw [insertAsc, if_neg h]
      exact (ih.cons y).trans (List.Perm.swap x y ys)

theorem sortAsc_perm : ∀ l : List ℚ, List.Perm (sortAsc l) l := by
  intro l
  induction l with
  | nil => simp [sortAsc]
  | cons x xs ih => exact (insertAsc_perm x (sortAsc xs)).trans (ih.cons x)

theorem insertAsc_sorted (x : ℚ) (l : List ℚ)
    (hl : l.Pairwise (· ≤ ·)) : (insertAsc x l).Pairwise (· ≤ ·) := by
  induction l with
  | nil => simp [insertAsc]
  | cons y ys ih =>
    have hpw := List.pairwise_cons.mp hl
    by_cases h : x ≤ y
    · rw [insertAsc, if_pos h]
      refine List.pairwise_cons.mpr ⟨?_, hl⟩
      intro z hz
      rcases List.mem_cons.mp hz with rfl | hz'
      · exact h
      · exact h.trans (hpw.1 z hz')
    · rw [insertAsc, if_neg h]
      refine List.pairwise_cons.mpr ⟨?_, ih hpw.2⟩
      intro z hz
      have := (insertAsc_perm x ys).mem_iff.mp hz
      rcases List.mem_cons.mp this with rfl | hz'
      · exact le_of_not_le h
      · exact hpw.1 z hz'

theorem sortAsc_sorted : ∀ l : List ℚ, (sortAsc l).Pairwise (· ≤ ·) := by
  intro l
  induction l with
  | nil => simp [sortAsc]
  | cons x xs ih => exact insertAsc_sorted x (sortAsc xs) ih

/-- Two permuted lists have the same ascending sort. -/
theorem sortAsc_eq_of_perm (l l' : List ℚ) (h : List.Perm l l') :
    sortAsc l = sortAsc l' := by
  haveI : IsAntisymm ℚ (· ≤ ·) := ⟨fun _ _ => le_antisymm⟩
  exact List.eq_of_perm_of_sorted
    ((sortAsc_perm l).trans (h.trans (sortAsc_perm l').symm))
    (sortAsc_sorted l) (sortAsc_sorted l')

theorem npMedian_eq_of_perm (l l' : List ℚ) (h : List.Perm l l') :
    npMedian l = npMedian l' := by
  unfold npMedian
  rw [sortAsc_eq_of_perm l l' h, h.length_eq]

theorem npMean_eq_of_perm (l l' : List ℚ) (h : List.Perm l l') :
    npMean l = npMean l' := by
  unfold npMean
  rw [h.sum_eq, h.length_eq]

theorem foldl_max_mem :
    ∀ (l : List ℚ) (a : ℚ), List.foldl max a l = a ∨ List.foldl max a l ∈ l := by
  intro l
  induction l with
  | nil => intro a; exact Or.inl rfl
  | cons y ys ih =>
    intro a
    rw [List.foldl_cons]
    rcases ih (max a y) with heq | hmem
    · rcases max_choice a y with hc | hc
      · exact Or.inl (heq.trans hc)
      · exact Or.inr (List.mem_cons.mpr (Or.inl (heq.trans hc)))
    · exact Or.inr (List.mem_cons_of_mem _ hmem)

theorem le_foldl_max : ∀ (l : List ℚ) (a : ℚ), a ≤ List.foldl max a l := by
  intro l
  induction l with
  | nil => intro a; exact le_refl a
  | cons y ys ih =>
    intro a
    rw [List.foldl_cons]
    exact (le_max_left a y).trans (ih (max a y))

theorem foldl_max_ge_mem :
    ∀ (l : List ℚ) (a x : ℚ), x ∈ l → x ≤ List.foldl max a l := by
  intro l
  induction l with
  | nil => simp
  | cons y ys ih =>
    intro a x hx
    rw [List.foldl_cons]
    rcases List.mem_cons.mp hx with rfl | hx'
    · exact (le_max_right a x).trans (le_foldl_max ys (max a x))
    · exact ih (max a y) x hx'

theorem pyMax_mem : ∀ l : List ℚ, l ≠ [] → pyMax l ∈ l := by
  intro l hne
  match l with
  | x :: xs =>
    rw [pyMax]
    rcases foldl_max_mem xs x with heq | hmem
    · rw [heq]; exact List.mem_cons_self x xs
    · exact List.mem_cons_of_mem _ hmem

theorem pyMax_ge_mem : ∀ (l : List ℚ) (y : ℚ), y ∈ l → y ≤ pyMax l := by
  intro l y hy
  match l with
  | x :: xs =>
    rw [pyMax]
    rcases List.mem_cons.mp hy with rfl | hy'
    · exact le_foldl_max xs y
    · exact foldl_max_ge_mem xs x y hy'

theorem pyMax_eq_of_perm (l l' : List ℚ) (hne : l ≠ []) (h : List.Perm l l') :
    pyMax l = pyMax l' := by
  have hne' : l' ≠ [] := by
    intro hc
    have hlen := h.length_eq
    rw [hc] at hlen
    simp at hlen
    exact hne hlen
  refine le_antisymm ?_ ?_
  · exact pyMax_ge_mem l' (pyMax l) (h.mem_iff.mp (pyMax_mem l hne))
  · exact pyMax_ge_mem l (pyMax l') (h.mem_iff.mpr (pyMax_mem l' hne'))

/-! ### Indexing lemmas for the top-N selection -/

theorem range_map_getD {α β : Type} :
    ∀ (l : List α) (k : Nat), k ≤ l.length → ∀ (f : α → β) (d : α),
      (List.range k).map (fun i => f (l.getD i d)) = (l.take k).map f := by
  intro l
  induction l with
  | nil =>
    intro k hk f d
    have hk0 : k = 0 := Nat.le_zero.mp (by simpa using hk)
    subst hk0
    simp
  | cons x xs ih =>
    intro k hk f d
    match k with
    | 0 => simp
    | m + 1 =>
      rw [List.range_succ_eq_map]
      simp only [List.map_cons, List.map_map]
      have hm : m ≤ xs.length := by simpa using hk
      have tail_eq :
          (List.range m).map ((fun i => f ((x :: xs).getD i d)) ∘ (· + 1)) =
            (List.range m).map (fun i => f (xs.getD i d)) := by
        refine List.map_congr_left ?_
        intro i _
        simp [List.getD_cons_succ]
      rw [tail_eq, ih m hm f d]
      simp [List.getD_cons_zero]

theorem enumFrom_map_getD {α : Type} [Inhabited α] :
    ∀ (sims : List ℚ) (k : Nat) (jd : List α), jd.length = k + sims.length →
      (enumFrom k sims).map (fun p => jd.getD p.1 default) = jd.drop k := by
  intro sims
  induction sims with
  | nil =>
    intro k jd hlen
    simp only [List.length_nil, Nat.add_zero] at hlen
    rw [List.drop_eq_nil_iff_le.mpr (by omega)]
    simp [enumFrom]
  | cons s ss ih =>
    intro k jd hlen
    simp only [List.length_cons] at hlen
    have hk : k < jd.length := by omega
    rw [enumFrom, List.map_cons, ih (k + 1) jd (by omega),
      List.getD_eq_get jd default hk, List.drop_eq_get_cons hk]

/-! ### Small helper lemmas -/

theorem getD_map_lt {α β : Type} (f : α → β) (l : List α) (i : Nat)
    (h : i < l.length) (d : β) (d' : α) :
    (l.map f).getD i d = f (l.getD i d') := by
  rw [List.getD_eq_get _ _ (by simpa using h), List.getD_eq_get _ _ h]
  simp

theorem string_pos_iff_ne_empty (s : String) : 0 < s.length ↔ s ≠ "" := by
  constructor
  · intro h hc
    rw [hc] at h
    simp at h
  · intro h
    rcases Nat.eq_zero_or_pos s.length with h0 | hp
    · exfalso
      apply h
      cases s with
      | mk data =>
        simp only [String.length] at h0
        rw [List.length_eq_zero] at h0
        subst h0
        rfl
    · exact hp

/-! ### Claim C1 -/

/-- C1, as stated, is false on the code: with a zero-norm job vector the
recorded similarity is the float nan, not `0.0` — scipy's `cosine` evaluates
`0.0/0.0` to nan (a `RuntimeWarning`, not an exception), `1 - nan` is nan, and
the `except` branch never fires. -/
theorem c1_counterexample :
    simScoreOf [(1 : ℚ), 0, 0] [0, 0, 0] = CosScore.nan ∧
    (simScoreOf [(1 : ℚ), 0, 0] [0, 0, 0]).isZero = false := by
  have h : simScoreOf [(1 : ℚ), 0, 0] [0, 0, 0] = CosScore.nan := by
    norm_num [simScoreOf, scipyCosineDist, dotQ]
  exact ⟨h, by rw [h]; rfl⟩

/-- C1 amended: whenever the query and job vector have equal dimension and
either operand has zero norm, the scipy call returns nan without raising, and
the score recorded by both scoring loops (`simScoreOf`) is nan — not `0.0` and
not a division error; the `0.0` default is reserved for an actual exception. -/
theorem c1_zero_norm_nan (q v : List ℚ) (hlen : q.length = v.length)
    (h0 : dotQ q q = 0 ∨ dotQ v v = 0) :
    scipyCosineDist q v = Except.ok CosScore.nan ∧ simScoreOf q v = CosScore.nan := by
  have hprod : dotQ q q * dotQ v v = 0 := by
    rcases h0 with h | h
    · rw [h, zero_mul]
    · rw [h, mul_zero]
  have hdist : scipyCosineDist q v = Except.ok CosScore.nan := by
    rw [scipyCosineDist, if_neg (by simp [hlen]), if_pos hprod]
  exact ⟨hdist, by rw [simScoreOf, hdist]⟩

theorem c1_witness :
    scipyCosineDist [(1 : ℚ)] [0] = Except.ok CosScore.nan ∧
    simScoreOf [(1 : ℚ)] [0] = CosScore.nan :=
  c1_zero_norm_nan [(1 : ℚ)] [0] (by decide) (Or.inr (by norm_num [dotQ]))

/-! ### Claim C10 -/

/-- C10: whenever `calculate_similarities` returns `True` the similarity list
has exactly one entry per job embedding, in embedding order (entry `i` is the
score of embedding `i`); and a per-job exception (the only in-model cause is a
dimension mismatch inside `np.dot`) records the score `0.0` for that job while
the loop continues and the call still succeeds. -/
theorem c10_one_score_per_job {α : Type} (m : Matcher α) (r : List ℚ)
    (hr : m.resume_embedding = some r)
    (hs : (calculateSimilarities m).1 = true) :
    (calculateSimilarities m).2.similarities.length = m.job_embeddings.length ∧
    (∀ i, i < m.job_embeddings.length →
      (calculateSimilarities m).2.similarities.getD i CosScore.nan =
        simScoreOf r (m.job_embeddings.getD i [])) ∧
    (∀ q v : List ℚ, q.length ≠ v.length →
      scipyCosineDist q v = Except.error () ∧
      simScoreOf q v = CosScore.val 0 1 ∧ (simScoreOf q v).isZero = true) := by
  have hcalc : calculateSimilarities m =
      (true, { m with similarities := scoreAllJobs r m.job_embeddings }) := by
    by_cases h1 : m.job_embeddings.length = 0
    · simp only [calculateSimilarities, hr, if_pos h1] at hs
      cases hs
    · by_cases h2 : m.job_data.length ≠ m.job_embeddings.length
      · simp only [calculateSimilarities, hr, if_neg h1, if_pos h2] at hs
        cases hs
      · simp only [calculateSimilarities, hr, if_neg h1, if_neg h2]
  refine ⟨?_, ?_, ?_⟩
  · rw [hcalc]
    simp [scoreAllJobs]
  · intro i hi
    rw [hcalc]
    simp only [scoreAllJobs]
    exact getD_map_lt (fun e => simScoreOf r e) m.job_embeddings i hi CosScore.nan []
  · intro q v hqv
    have herr : scipyCosineDist q v = Except.error () := by
      rw [scipyCosineDist, if_pos hqv]
    refine ⟨herr, ?_, ?_⟩
    · rw [simScoreOf, herr]
    · rw [simScoreOf, herr]
      rfl

/-- Concrete instantiation of `c10_one_score_per_job`: a matcher with two
embeddings (the second of mismatched dimension) succeeds with two scores. -/
def matcherEx : Matcher String :=
  { job_embeddings := [[1, 0], [2]]
    resume_embedding := some [1, 1]
    job_data := ["jobA", "jobB"]
    similarities := [] }

theorem c10_witness :
    (calculateSimilarities matcherEx).2.similarities.length =
      matcherEx.job_embeddings.length :=
  (c10_one_score_per_job matcherEx [1, 1] rfl (by decide)).1

/-! ### Claim C9 -/

/-- C9, as stated, is false on the code: no `EmptyInputError` (or any
exception) exists.  With zero job vectors `calculate_similarities` returns
`False` leaving the state unchanged, `get_top_jobs` silently returns the empty
list, and `save_results` on that empty list writes nothing. -/
theorem c9_counterexample :
    calculateSimilarities
        ({ job_embeddings := [], resume_embedding := some [1],
           job_data := ["jobA"], similarities := [] } : Matcher String) =
      (false,
        { job_embeddings := [], resume_embedding := some [1],
          job_data := ["jobA"], similarities := [] }) ∧
    getTopJobs ["jobA"] ([] : List ℚ) 10 = [] ∧
    saveResultsWrites (getTopJobs ["jobA"] ([] : List ℚ) 10) = false := by
  refine ⟨rfl, rfl, rfl⟩

/-- C9 amended: with zero job vectors or a missing query vector the ranking
stage signals failure through its `False` return value (state unchanged, no
exception type involved), `get_top_jobs` on an empty similarity list returns
`[]`, and the save step writes nothing for an empty result. -/
theorem c9_empty_input_returns_false {α : Type} [Inhabited α] (m : Matcher α)
    (jobData : List α) (top_n : Nat)
    (h : m.job_embeddings = [] ∨ m.resume_embedding = none) :
    calculateSimilarities m = (false, m) ∧
    getTopJobs jobData ([] : List ℚ) top_n = [] ∧
    saveResultsWrites (getTopJobs jobData ([] : List ℚ) top_n) = false := by
  refine ⟨?_, rfl, rfl⟩
  rcases h with h | h
  · cases hr : m.resume_embedding with
    | none => simp only [calculateSimilarities, hr]
    | some r =>
      simp only [calculateSimilarities, hr, h, List.length_nil]
      simp
  · simp only [calculateSimilarities, h]

theorem c9_witness :
    calculateSimilarities
        ({ job_embeddings := [[1]], resume_embedding := none,
           job_data := ["jobA"], similarities := [] } : Matcher String) =
      (false,
        { job_embeddings := [[1]], resume_embedding := none,
          job_data := ["jobA"], similarities := [] }) ∧
    getTopJobs ["jobA"] ([] : List ℚ) 3 = [] ∧
    saveResultsWrites (getTopJobs ["jobA"] ([] : List ℚ) 3) = false :=
  c9_empty_input_returns_false _ ["jobA"] 3 (Or.inr rfl)

/-! ### Claim C5 -/

/-- C5, as stated, is false on the code: a similarity list can contain nan
(zero-norm job vector — rediscovered here on a fresh input), every Python
comparison against nan is false, and CPython's sort with `reverse=True` then
returns the scores `[0.0, nan, 1.0]` unchanged — not descending, with the best
match last (the whole reversed list is one `count_run` "ascending" run because
no `<` test against nan succeeds). -/
theorem c5_counterexample :
    simScoreOf [(1 : ℚ), 0] [0, 0] = CosScore.nan ∧
    pySortReverse pyLtScorePair (0, none)
        [(0, some (0 : ℚ)), (1, none), (2, some 1)] =
      [(0, some (0 : ℚ)), (1, none), (2, some 1)] ∧
    pyLtOptQ (some (0 : ℚ)) (some 1) = true := by
  refine ⟨?_, by decide, by decide⟩
  norm_num [simScoreOf, scipyCosineDist, dotQ]

/-- C5 amended: on a similarity list free of nan — i.e. with real-valued
scores, over which this theorem quantifies — the score sort used by
`get_top_jobs` (and by stage 4) is a permutation of the enumerated scores, is
descending in score, breaks ties by original ingestion order (the enumeration
index), and is the unique such arrangement — so re-running the ranker on the
same scored set reproduces it exactly, independent of sort algorithm.  A nan
score (reachable via a zero-norm vector) voids the descending-order guarantee:
see the counterexample. -/
theorem c5_sort_stable_descending (sims : List ℚ) :
    List.Perm (pySortDesc Prod.snd (pyEnum sims)) (pyEnum sims) ∧
    (pySortDesc Prod.snd (pyEnum sims)).Pairwise (fun a b => b.2 ≤ a.2) ∧
    (pySortDesc Prod.snd (pyEnum sims)).Pairwise (fun a b => a.2 = b.2 → a.1 < b.1) ∧
    (∀ l' : List (Nat × ℚ), List.Perm l' (pyEnum sims) → l'.Pairwise rkLT →
      l' = pySortDesc Prod.snd (pyEnum sims)) := by
  have hpw := pySortDesc_pyEnum_pairwise sims
  refine ⟨pySortDesc_perm Prod.snd (pyEnum sims), ?_, ?_, ?_⟩
  · refine hpw.imp ?_
    rintro a b (hlt | ⟨heq, _⟩)
    · exact le_of_lt hlt
    · exact le_of_eq heq.symm
  · refine hpw.imp ?_
    rintro a b (hlt | ⟨heq, hidx⟩)
    · intro heq2
      exact absurd hlt (heq2 ▸ lt_irrefl _)
    · intro _
      exact hidx
  · intro l' hperm hpw'
    haveI : IsAntisymm (Nat × ℚ) rkLT := ⟨rkLT_antisymm⟩
    exact List.eq_of_perm_of_sorted
      (hperm.trans (pySortDesc_perm Prod.snd (pyEnum sims)).symm) hpw' hpw

theorem c5_witness :
    [((0 : Nat), (1 : ℚ)), (1, 1)] = pySortDesc Prod.snd (pyEnum [(1 : ℚ), 1]) :=
  (c5_sort_stable_descending [(1 : ℚ), 1]).2.2.2 [(0, 1), (1, 1)]
    (by norm_num [pyEnum, enumFrom])
    (by
      refine List.pairwise_cons.mpr ⟨?_, by simp⟩
      intro y hy
      rw [List.mem_singleton] at hy
      subst hy
      exact Or.inr ⟨rfl, Nat.zero_lt_one⟩)

/-! ### Claim C6 -/

/-- C6: `get_top_jobs` returns exactly `min(top_n, N)` entries, their ranks
are exactly `1, 2, ..., min(top_n, N)` in output order, and when `top_n`
covers the whole population the returned jobs are a permutation of the full
job list — nothing duplicated, nothing missing. -/
theorem getTopJobs_of_nonempty {α : Type} [Inhabited α] (jobData : List α)
    (sims : List ℚ) (top_n : Nat) (h : ¬sims.isEmpty = true) :
    getTopJobs jobData sims top_n =
      (List.range (min top_n (pySortDesc Prod.snd (pyEnum sims)).length)).map
        (fun i =>
          TopJob.mk
            (jobData.getD ((pySortDesc Prod.snd (pyEnum sims)).getD i (0, 0)).1 default)
            ((pySortDesc Prod.snd (pyEnum sims)).getD i (0, 0)).2 (i + 1)) := by
  rw [getTopJobs, if_neg h]

theorem c6_top_n_selection {α : Type} [Inhabited α] (jobData : List α)
    (sims : List ℚ) (top_n : Nat) (hlen : jobData.length = sims.length) :
    (getTopJobs jobData sims top_n).length = min top_n sims.length ∧
    (getTopJobs jobData sims top_n).map (fun j => j.rank) =
      (List.range (min top_n sims.length)).map (fun i => i + 1) ∧
    (sims.length ≤ top_n →
      List.Perm ((getTopJobs jobData sims top_n).map (fun j => j.job)) jobData) := by
  by_cases hnil : sims.isEmpty = true
  · have hsims : sims = [] := List.isEmpty_iff.mp hnil
    subst hsims
    have hout : getTopJobs jobData ([] : List ℚ) top_n = [] := by
      rw [getTopJobs, if_pos hnil]
    refine ⟨by rw [hout]; simp, by rw [hout]; simp, ?_⟩
    intro _
    have : jobData = [] := List.length_eq_zero.mp (by simpa using hlen)
    subst this
    rw [hout]
    simp
  · have hsort_len :
        (pySortDesc Prod.snd (pyEnum sims)).length = sims.length := by
      rw [(pySortDesc_perm Prod.snd (pyEnum sims)).length_eq, pyEnum_length]
    rw [getTopJobs_of_nonempty jobData sims top_n hnil, hsort_len, List.map_map,
      List.map_map]
    refine ⟨by simp, by simp, ?_⟩
    intro htop
    have hmin : min top_n sims.length = sims.length := Nat.min_eq_right htop
    rw [hmin]
    have hcomp :
        ((fun j : TopJob α => j.job) ∘ (fun i =>
          TopJob.mk
            (jobData.getD ((pySortDesc Prod.snd (pyEnum sims)).getD i (0, 0)).1 default)
            ((pySortDesc Prod.snd (pyEnum sims)).getD i (0, 0)).2 (i + 1))) =
        (fun i =>
          (fun p : Nat × ℚ => jobData.getD p.1 default)
            ((pySortDesc Prod.snd (pyEnum sims)).getD i (0, 0))) := rfl
    rw [hcomp]
    rw [range_map_getD (pySortDesc Prod.snd (pyEnum sims)) sims.length
      (le_of_eq hsort_len.symm) (fun p : Nat × ℚ => jobData.getD p.1 default) (0, 0)]
    have htake : (pySortDesc Prod.snd (pyEnum sims)).take sims.length =
        pySortDesc Prod.snd (pyEnum sims) := by
      rw [← hsort_len]
      exact List.take_length _
    rw [htake]
    have hperm := (pySortDesc_perm Prod.snd (pyEnum sims)).map
      (fun p : Nat × ℚ => jobData.getD p.1 default)
    have henum : (pyEnum sims).map
        (fun p : Nat × ℚ => jobData.getD p.1 default) = jobData := by
      have := enumFrom_map_getD sims 0 jobData (by simpa using hlen)
      simpa [pyEnum] using this
    rw [henum] at hperm
    exact hperm

theorem c6_witness :
    (getTopJobs ["jobA", "jobB"] [(1 : ℚ), 0] 5).length = min 5 [(1 : ℚ), 0].length :=
  (c6_top_n_selection ["jobA", "jobB"] [(1 : ℚ), 0] 5 rfl).1

/-! ### Claim C7 -/

/-- C7, as stated, is false on the code: `analyze_results` in the matcher
computes its statistics over the `top_jobs` list it is handed, not over all
scored records — with scores `[1, 0]` and `top_n = 1` its reported average is
`1`, while the mean over all scored records is `1/2`. -/
theorem c7_counterexample :
    analyzeAverage (getTopJobs ["jobA", "jobB"] [(1 : ℚ), 0] 1) = 1 ∧
    npMean [(1 : ℚ), 0] = 1 / 2 ∧
    analyzeAverage (getTopJobs ["jobA", "jobB"] [(1 : ℚ), 0] 1) ≠ npMean [(1 : ℚ), 0] := by
  have hg : getTopJobs ["jobA", "jobB"] [(1 : ℚ), 0] 1 = [TopJob.mk "jobA" 1 1] := by
    decide
  have h1 : analyzeAverage (getTopJobs ["jobA", "jobB"] [(1 : ℚ), 0] 1) = 1 := by
    rw [hg]
    norm_num [analyzeAverage, analyzeScores, npMean]
  have h2 : npMean [(1 : ℚ), 0] = 1 / 2 := by
    norm_num [npMean]
  refine ⟨h1, h2, ?_⟩
  rw [h1, h2]
  norm_num

/-- C7 amended: the pipeline's `display_results` does compute its summary
statistics (mean, maximum, median) over all N scored records — the list it
reads is a permutation of the full score list, for every population and every
`top_n` cutoff — while `analyze_results` in the matcher aggregates only the
top-N list passed to it. -/
theorem c7_display_stats_over_all (scores : List ℚ) (top_n : Nat) :
    List.Perm (displayStatScores (runStage4Rank scores top_n)) scores ∧
    npMean (displayStatScores (runStage4Rank scores top_n)) = npMean scores ∧
    npMedian (displayStatScores (runStage4Rank scores top_n)) = npMedian scores ∧
    (scores ≠ [] →
      pyMax (displayStatScores (runStage4Rank scores top_n)) = pyMax scores) := by
  have hperm : List.Perm (displayStatScores (runStage4Rank scores top_n)) scores := by
    simp only [displayStatScores, runStage4Rank]
    have := (pySortDesc_perm Prod.snd (pyEnum scores)).map Prod.snd
    rw [show (pyEnum scores).map Prod.snd = scores from enumFrom_map_snd 0 scores] at this
    exact this
  refine ⟨hperm, npMean_eq_of_perm _ _ hperm, npMedian_eq_of_perm _ _ hperm, ?_⟩
  intro hne
  refine pyMax_eq_of_perm _ _ ?_ hperm
  intro hc
  have hlen := hperm.length_eq
  rw [hc] at hlen
  simp only [List.length_nil] at hlen
  exact hne (List.length_eq_zero.mp hlen.symm)

theorem c7_witness :
    pyMax (displayStatScores (runStage4Rank [(1 : ℚ), 0] 1)) = pyMax [(1 : ℚ), 0] :=
  (c7_display_stats_over_all [(1 : ℚ), 0] 1).2.2.2 (by simp)

/-! ### Claim C2 -/

/-- A record whose (already clean) description has 30 characters. -/
def rDesc30 : RawJob :=
  { title := some "Dev", company := some "Acme", location := some "Remote",
    description := some "Builds APIs with Python daily.", url := none, source := none,
    scraped_date := none }

/-- C2, as stated, is false on the code: the normalizer's `remove_bad_jobs`
retains a record whose cleaned description has only 30 characters — its
hard-coded threshold is 20, not the configurable 50 (and a missing description
is retained outright). -/
theorem c2_counterexample :
    removeBadJobs [rDesc30] = [rDesc30] ∧
    cleanDescription rDesc30.description = "Builds APIs with Python daily." ∧
    ("Builds APIs with Python daily." : String).length = 30 ∧
    ¬(50 ≤ ("Builds APIs with Python daily." : String).length) := by
  refine ⟨by decide, by decide, by decide, by decide⟩

/-- C2 amended: the pipeline's `_is_valid_job` retains a job iff title and
company are non-empty after trim and the trimmed description has at least 50
characters — 50 being hard-coded, equal to (but not read from) the config
default `QUALITY_SETTINGS['min_description_length']`; the normalizer's
`remove_bad_jobs`, however, retains a record iff title and company are present
and non-empty (untrimmed) and the description is missing or at least 20
characters long. -/
theorem c2_validity_predicates :
    (∀ (rs : List RawJob) (r : RawJob),
      r ∈ removeBadJobs rs ↔
        r ∈ rs ∧ titleCompanyOk r = true ∧ descLenOk r = true) ∧
    (∀ j : PipeJob,
      isValidJob j = true ↔
        (pyStrip j.title ≠ "" ∧ pyStrip j.company ≠ "" ∧
          minDescriptionLengthSetting ≤ (pyStrip j.description).length)) ∧
    minDescriptionLengthSetting = 50 := by
  refine ⟨?_, ?_, rfl⟩
  · intro rs r
    simp only [removeBadJobs, List.mem_filter]
    tauto
  · intro j
    simp only [isValidJob, minDescriptionLengthSetting, Bool.and_eq_true,
      decide_eq_true_eq, string_pos_iff_ne_empty]
    tauto

theorem c2_witness : rDesc30 ∈ removeBadJobs [rDesc30] :=
  (c2_validity_predicates.1 [rDesc30] rDesc30).mpr (by decide)

/-! ### Claim C3 -/

/-- An invalid record (empty description) with identity `dev|acme`. -/
def rInvalidC3 : RawJob :=
  { title := some "Dev", company := some "Acme", location := some "Remote",
    description := some "", url := none, source := none, scraped_date := none }

/-- A valid record (63-character description) with the same identity. -/
def rValidC3 : RawJob :=
  { title := some "Dev", company := some "Acme", location := some "Remote",
    description := some "Build and maintain backend services using Python and SQL daily.",
    url := none, source := none, scraped_date := none }

/-- C3, as stated, is false on the code: `clean_all_jobs` runs
`remove_duplicates()` BEFORE `remove_bad_jobs()`, so the invalid first record
consumes the identity `dev|acme` and the later valid record is dropped as a
duplicate — the whole output is empty, although the valid record alone
survives cleaning. -/
theorem c3_counterexample :
    cleanAllJobs [rInvalidC3, rValidC3] = [] ∧
    (cleanAllJobs [rValidC3]).length = 1 ∧
    ppKey rInvalidC3 = ppKey rValidC3 := by
  refine ⟨by decide, by decide, by decide⟩

/-- C3 amended: in `clean_all_jobs` deduplication runs before validity
filtering, so a record survives the dedup and validity passes IFF it passes
both validity filters and is the first record of its dedup identity among ALL
cleaned records — including invalid ones, which therefore do consume dedup
identities.  Each survivor appears in the final output extended with its
`clean_text` column, and every final-output record arises this way.  (The two
removal counts are still reported separately, by each step.) -/
theorem c3_dedup_before_validity (rs : List RawJob) (r : RawJob) :
    (r ∈ removeBadJobs (removeDuplicates (cleanFields rs)) ↔
      titleCompanyOk r = true ∧ descLenOk r = true ∧
      (cleanFields rs).find? (fun z => decide (ppKey z = ppKey r)) = some r) ∧
    (r ∈ removeBadJobs (removeDuplicates (cleanFields rs)) →
      { r with clean_text := some (composeCleanText r) } ∈ cleanAllJobs rs) ∧
    (∀ s ∈ cleanAllJobs rs, ∃ r0 ∈ removeBadJobs (removeDuplicates (cleanFields rs)),
      s = { r0 with clean_text := some (composeCleanText r0) }) := by
  refine ⟨⟨?_, ?_⟩, ?_, ?_⟩
  · intro hr
    rw [removeBadJobs, List.mem_filter, List.mem_filter] at hr
    obtain ⟨⟨hdd, htc⟩, hdl⟩ := hr
    exact ⟨htc, hdl,
      keepFirstAux_first_wins ppKey (fun _ => false) [] (cleanFields rs) r hdd⟩
  · rintro ⟨htc, hdl, hfind⟩
    rw [removeBadJobs, List.mem_filter, List.mem_filter]
    refine ⟨⟨?_, htc⟩, hdl⟩
    exact keepFirstAux_mem_of_first ppKey (fun _ => false) [] (cleanFields rs) r
      hfind rfl (List.not_mem_nil _)
  · intro hr
    rw [cleanAllJobs, createCleanText]
    exact List.mem_map.mpr ⟨r, hr, rfl⟩
  · intro s hs
    rw [cleanAllJobs, createCleanText] at hs
    obtain ⟨r0, hr0, heq⟩ := List.mem_map.mp hs
    exact ⟨r0, hr0, heq.symm⟩

theorem c3_witness :
    rValidC3 ∈ removeBadJobs (removeDuplicates (cleanFields [rValidC3])) :=
  (c3_dedup_before_validity [rValidC3] rValidC3).1.mpr (by decide)

/-! ### Claim C4 -/

/-- Two distinct jobs whose titles differ only in internal whitespace. -/
def jWide : RawJob :=
  { title := some "Senior  Dev", company := some "Acme", location := none,
    description := none, url := none, source := none, scraped_date := none }

def jNarrow : RawJob :=
  { title := some "Senior Dev", company := some "Acme", location := none,
    description := none, url := none, source := none, scraped_date := none }

/-- C4, as stated, is false on the code: neither dedup key collapses internal
whitespace, so the pipeline's `_remove_duplicates` keeps both of two records
whose identities coincide under the spec's normalize (lowercase, trim,
collapse internal whitespace). -/
theorem c4_counterexample :
    pipeRemoveDuplicates [jWide, jNarrow] = [jWide, jNarrow] ∧
    specIdentity "Senior  Dev" "Acme" = specIdentity "Senior Dev" "Acme" ∧
    jWide ≠ jNarrow := by
  refine ⟨by decide, by decide, by decide⟩

/-- C4 amended: each dedup pass is keep-first per ITS OWN key — the
normalizer's key is `lower(title) + "|" + lower(company)` (no trim, no
whitespace collapse; NaN propagates), the pipeline's identity is
`(lower(strip(title)), lower(strip(company)))` (no internal-whitespace
collapse) and it additionally drops every record whose identity is
`("", "")`.  The output preserves input order (a sublist), contains no two
records with equal keys, each kept record is the first of its key in the
input, and every input key (other than the pipeline's excluded `("", "")`) is
represented. -/
theorem c4_dedup_keys (js : List RawJob) :
    (pipeRemoveDuplicates js).Sublist js ∧
    (pipeRemoveDuplicates js).Pairwise (fun a b => pipeIdentity a ≠ pipeIdentity b) ∧
    (∀ y ∈ pipeRemoveDuplicates js,
      js.find? (fun z => decide (pipeIdentity z = pipeIdentity y)) = some y ∧
      pipeIdentity y ≠ ("", "")) ∧
    (∀ y ∈ js, pipeIdentity y ≠ ("", "") →
      ∃ z ∈ pipeRemoveDuplicates js, pipeIdentity z = pipeIdentity y) ∧
    (removeDuplicates js).Sublist js ∧
    (removeDuplicates js).Pairwise (fun a b => ppKey a ≠ ppKey b) ∧
    (∀ y ∈ removeDuplicates js,
      js.find? (fun z => decide (ppKey z = ppKey y)) = some y) ∧
    (∀ y ∈ js, ∃ z ∈ removeDuplicates js, ppKey z = ppKey y) := by
  unfold pipeRemoveDuplicates removeDuplicates
  refine ⟨keepFirstAux_sublist _ _ [] js, keepFirstAux_pairwise _ _ [] js, ?_, ?_,
    keepFirstAux_sublist _ _ [] js, keepFirstAux_pairwise _ _ [] js, ?_, ?_⟩
  · intro y hy
    refine ⟨keepFirstAux_first_wins _ _ [] js y hy, ?_⟩
    have := (keepFirstAux_mem_key _ _ [] js y hy).2
    exact of_decide_eq_false this
  · intro y hy hne
    obtain ⟨z, hz, hzk⟩ := keepFirstAux_complete pipeIdentity
      (fun k => decide (k = ("", ""))) [] js y hy (decide_eq_false hne)
      (List.not_mem_nil _)
    exact ⟨z, hz, hzk⟩
  · intro y hy
    exact keepFirstAux_first_wins _ _ [] js y hy
  · intro y hy
    obtain ⟨z, hz, hzk⟩ := keepFirstAux_complete ppKey (fun _ => false) [] js y hy rfl
      (List.not_mem_nil _)
    exact ⟨z, hz, hzk⟩

theorem c4_witness :
    (pipeRemoveDuplicates [jWide, jNarrow]).Sublist [jWide, jNarrow] :=
  (c4_dedup_keys [jWide, jNarrow]).1

/-! ### Claim C8 -/

/-- C8: both deduplication passes are idempotent — re-running either on its
own output removes nothing — and neither ever lengthens its input. -/
theorem c8_dedup_idempotent (rs : List RawJob) :
    removeDuplicates (removeDuplicates rs) = removeDuplicates rs ∧
    (removeDuplicates rs).length ≤ rs.length ∧
    pipeRemoveDuplicates (pipeRemoveDuplicates rs) = pipeRemoveDuplicates rs ∧
    (pipeRemoveDuplicates rs).length ≤ rs.length := by
  unfold removeDuplicates pipeRemoveDuplicates
  exact ⟨keepFirstAux_idem _ _ [] rs, keepFirstAux_length_le _ _ [] rs,
    keepFirstAux_idem _ _ [] rs, keepFirstAux_length_le _ _ [] rs⟩
